import Mathlib

/-!
# Verification of the word_redlining core algorithms

Shallow embedding of the repository's algorithmic core:
* the whitespace/non-whitespace tokenizer and LCS-based token diff engine
  (`tokenize`, `diffTokens`, `mergeSegments`, source file `part_003`),
* the region-merged diff renderer (`formatDiffRegions`, the region-building
  phase of `formatDiffHtml` in `taskpane.js`),
* the clause segmenter (`splitIntoClauses`, source file `part_000`).

Strings are modelled as `List Char`; JavaScript's `\s` class is modelled by
`isWS`.
-/

/-- A string is modelled as a list of characters. -/
abbrev Str := List Char

/-- JavaScript's `\s` character class (also the set trimmed by
`String.prototype.trim`): ASCII whitespace, NBSP, the Unicode space
separators, line/paragraph separators, narrow no-break space, medium
mathematical space, ideographic space and the BOM. -/
def isWS (c : Char) : Bool :=
  c == ' ' || c == '\t' || c == '\n' || c == '\x0b' || c == '\x0c' || c == '\r' ||
  c == '\u00A0' || c == '\u1680' || ('\u2000' ≤ c && c ≤ '\u200A') ||
  c == '\u2028' || c == '\u2029' || c == '\u202F' || c == '\u205F' ||
  c == '\u3000' || c == '\uFEFF'

/-- Embeds `String.prototype.trim`: remove leading and trailing whitespace. -/
def trim (l : Str) : Str :=
  ((l.dropWhile isWS).reverse.dropWhile isWS).reverse

/-- Embeds `tokenize(text)`, that is `text.match(/\s+|\S+/g) ?? []`: split a string
into the ordered list of maximal runs of whitespace respectively
non-whitespace characters.  Empty input yields the empty list. -/
def tokenize : Str → List Str
  | [] => []
  | c :: rest =>
    (c :: rest.takeWhile (fun d => isWS d == isWS c)) ::
      tokenize (rest.dropWhile (fun d => isWS d == isWS c))
termination_by s => s.length
decreasing_by
  simp only [List.length_cons]
  exact Nat.lt_succ_of_le (List.IsSuffix.length_le (List.dropWhile_suffix _))

/-- The kind of a diff segment: the `type` field of the segment objects
produced by `diffTokens` (`"equal"`, `"delete"`, `"insert"`). -/
inductive SegType where
  | equal : SegType
  | delete : SegType
  | insert : SegType
deriving DecidableEq, Repr

/-- A diff segment `{ type, text }`. -/
structure Segment where
  type : SegType
  text : Str
deriving DecidableEq, Repr

/-- The dynamic-programming table of `diffTokens` expressed as a function:
`dp[i][j]` in the source equals `lcsLen (left.drop i) (right.drop j)`.  The
defining equations are exactly the table recurrence of lines 21–29 of the
source (`dp[i][j] = dp[i+1][j+1] + 1` on token equality, otherwise
`max dp[i+1][j] dp[i][j+1]`, with zero borders). -/
def lcsLen : List Str → List Str → Nat
  | [], _ => 0
  | _ :: _, [] => 0
  | a :: ta, b :: tb =>
    if a = b then lcsLen ta tb + 1
    else max (lcsLen ta (b :: tb)) (lcsLen (a :: ta) tb)
termination_by x y => x.length + y.length
decreasing_by all_goals simp_arith

/-- The forward reconstruction walk of `diffTokens` (lines 31–57 of the
source): while both token lists are non-empty, emit Equal on token equality,
otherwise Delete when `dp[i+1][j] >= dp[i][j+1]` and Insert otherwise; once a
side is exhausted, flush the remaining tokens of the other side as Insert
respectively Delete segments. -/
def walk : List Str → List Str → List Segment
  | [], rs => rs.map (fun t => ⟨SegType.insert, t⟩)
  | l :: ls, [] => (l :: ls).map (fun t => ⟨SegType.delete, t⟩)
  | l :: ls, r :: rs =>
    if l = r then ⟨SegType.equal, l⟩ :: walk ls rs
    else if lcsLen ls (r :: rs) ≥ lcsLen (l :: ls) rs then
      ⟨SegType.delete, l⟩ :: walk ls (r :: rs)
    else
      ⟨SegType.insert, r⟩ :: walk (l :: ls) rs
termination_by x y => x.length + y.length
decreasing_by all_goals simp_arith

/-- Embeds `mergeSegments(segments)`: coalesce adjacent segments of equal type by
concatenating their texts (the source appends `current.text` onto the last
merged segment when the types agree, otherwise pushes a copy). -/
def mergeSegments : List Segment → List Segment
  | [] => []
  | [s] => [s]
  | s :: t :: rest =>
    if s.type = t.type then mergeSegments (⟨s.type, s.text ++ t.text⟩ :: rest)
    else s :: mergeSegments (t :: rest)
termination_by l => l.length
decreasing_by all_goals simp_arith

/-- The default value of the `maxCells` parameter of `diffTokens`. -/
def defaultMaxCells : Nat := 120000

/-- Embeds `diffTokens(original, revised, maxCells)`: tokenize both strings; both
empty token lists yield the empty segment list; a token-count product above
`maxCells` yields the skip sentinel (`null` in the source, `none` here);
otherwise the DP walk is run and adjacent same-type segments merged. -/
def diffTokens (original revised : Str) (maxCells : Nat) : Option (List Segment) :=
  let left := tokenize original
  let right := tokenize revised
  if left.length = 0 ∧ right.length = 0 then some []
  else if left.length * right.length > maxCells then none
  else some (mergeSegments (walk left right))

/-- Concatenation of the texts of the segments whose type is kept by `keep`,
in order. -/
def reconBy (keep : SegType → Bool) (segs : List Segment) : Str :=
  ((segs.filter (fun s => keep s.type)).map Segment.text).flatten

/-- Keep Delete and Equal segments (the original-side content). -/
def keepLeft : SegType → Bool
  | SegType.insert => false
  | _ => true

/-- Keep Insert and Equal segments (the revised-side content). -/
def keepRight : SegType → Bool
  | SegType.delete => false
  | _ => true

/-- Keep only Delete segments. -/
def keepDelete : SegType → Bool
  | SegType.delete => true
  | _ => false

/-- Decidable "no two consecutive segments share a type". -/
def noAdjSame : List Segment → Bool
  | [] => true
  | [_] => true
  | s :: t :: rest => s.type ≠ t.type && noAdjSame (t :: rest)

/-- A display region of the region-merged renderer: either an unchanged
stretch, or a change carrying the accumulated deleted and inserted text. -/
inductive Region where
  | change (deleted inserted : Str) : Region
  | equal (text : Str) : Region
deriving DecidableEq, Repr

/-- Embeds `MIN_EQUAL_LENGTH` of `formatDiffHtml` in `taskpane.js`: an Equal segment
counts as a significant separator when its trimmed length reaches this. -/
def MIN_EQUAL_LENGTH : Nat := 10

/-- The region-building loop of `formatDiffHtml` (`taskpane.js`, lines
760–798), the two extra arguments being the `pendingDeletes` and
`pendingInserts` accumulators: a significant Equal segment flushes non-empty
accumulators as one Change region and emits an Equal region; an insignificant
Equal appends its text to both accumulators; Delete/Insert append to their
accumulator; at the end, remaining accumulators are emitted as a Change
region when their trimmed contents differ, otherwise as an Equal region. -/
def formatDiffRegions : List Segment → Str → Str → List Region
  | [], pendingDeletes, pendingInserts =>
    if pendingDeletes ≠ [] ∨ pendingInserts ≠ [] then
      if trim pendingDeletes ≠ trim pendingInserts then
        [Region.change pendingDeletes pendingInserts]
      else [Region.equal pendingInserts]
    else []
  | seg :: rest, pendingDeletes, pendingInserts =>
    match seg.type with
    | SegType.equal =>
      if MIN_EQUAL_LENGTH ≤ (trim seg.text).length then
        (if pendingDeletes ≠ [] ∨ pendingInserts ≠ [] then
          [Region.change pendingDeletes pendingInserts]
        else []) ++ Region.equal seg.text :: formatDiffRegions rest [] []
      else formatDiffRegions rest (pendingDeletes ++ seg.text) (pendingInserts ++ seg.text)
    | SegType.delete => formatDiffRegions rest (pendingDeletes ++ seg.text) pendingInserts
    | SegType.insert => formatDiffRegions rest pendingDeletes (pendingInserts ++ seg.text)

/-- The line-ending normalization of `splitIntoClauses`:
`text.replace(/\r\n/g, '\n').replace(/\r/g, '\n')`. -/
def normalizeNewlines : Str → Str
  | [] => []
  | '\r' :: '\n' :: rest => '\n' :: normalizeNewlines rest
  | '\r' :: rest => '\n' :: normalizeNewlines rest
  | c :: rest => c :: normalizeNewlines rest

/-- Length of the leftmost-greedy match of `/\n\s*\n/` at the head of `s`
(`0` when there is no match): the match extends to the last `'\n'` of the
maximal whitespace run starting at the head, and exists exactly when that run
contains a second `'\n'` (so the result is `≥ 2` on a match). -/
def blankSepLen (s : Str) : Nat :=
  let run := s.takeWhile isWS
  run.length - (run.reverse.takeWhile (fun c => c ≠ '\n')).length

/-- Embeds `normalized.split(/\n\s*\n/)`: scan left to right, cutting a piece at
every position where a blank-line separator matches; `acc` holds the current
piece reversed. -/
def splitBlankLinesGo (acc : Str) : Str → List Str
  | [] => [acc.reverse]
  | c :: rest =>
    if _h : c = '\n' ∧ 2 ≤ blankSepLen (c :: rest) then
      acc.reverse :: splitBlankLinesGo [] ((c :: rest).drop (blankSepLen (c :: rest)))
    else splitBlankLinesGo (c :: acc) rest
termination_by s => s.length
decreasing_by
  · simp only [List.length_drop, List.length_cons]
    omega
  · simp

/-- Embeds `[0-9]` of the enumerator pattern. -/
def isDigitCh (c : Char) : Bool := '0' ≤ c && c ≤ '9'

/-- Embeds `[a-zA-Z0-9]` of the enumerator pattern. -/
def isAlnumCh (c : Char) : Bool :=
  ('a' ≤ c && c ≤ 'z') || ('A' ≤ c && c ≤ 'Z') || ('0' ≤ c && c ≤ '9')

/-- Embeds `[A-Z]`. -/
def isUpperAZ (c : Char) : Bool := 'A' ≤ c && c ≤ 'Z'

/-- The lookahead `(?=\d+\.|\d+\)|\([a-zA-Z0-9]+\)|[A-Z])` of the fallback-1
split: the text after a newline starts with digits followed by `.` or `)`,
or a parenthesized alphanumeric label, or an ASCII uppercase letter. -/
def enumAhead (t : Str) : Bool :=
  (!(t.takeWhile isDigitCh).isEmpty &&
    (match t.dropWhile isDigitCh with
     | '.' :: _ => true
     | ')' :: _ => true
     | _ => false)) ||
  (match t with
   | '(' :: u =>
     !(u.takeWhile isAlnumCh).isEmpty &&
       (match u.dropWhile isAlnumCh with
        | ')' :: _ => true
        | _ => false)
   | _ => false) ||
  (match t with
   | d :: _ => isUpperAZ d
   | [] => false)

/-- Embeds `normalized.split(/\n(?=\d+\.|\d+\)|\([a-zA-Z0-9]+\)|[A-Z])/)`: the
separator is a single newline whose right context matches the enumerator
lookahead. -/
def splitEnumGo (acc : Str) : Str → List Str
  | [] => [acc.reverse]
  | c :: rest =>
    if c = '\n' ∧ enumAhead rest then acc.reverse :: splitEnumGo [] rest
    else splitEnumGo (c :: acc) rest

/-- Embeds `[.!?]` of the sentence-boundary lookbehind. -/
def isPunctEnd (c : Char) : Bool := c == '.' || c == '!' || c == '?'

/-- A match of `/(?<=[.!?])\s+(?=[A-Z])/` starts at the head of `s`: the
previous character was sentence-ending punctuation, the head is whitespace,
and the character right after the maximal whitespace run is uppercase (the
greedy `\s+` must end exactly at the run's end, since `[A-Z]` is
non-whitespace). -/
def sentBoundary (prevPunct : Bool) (s : Str) : Bool :=
  prevPunct &&
    (match s with
     | c :: _ =>
       isWS c &&
         (match s.dropWhile isWS with
          | d :: _ => isUpperAZ d
          | [] => false)
     | [] => false)

/-- Embeds `normalized.split(/(?<=[.!?])\s+(?=[A-Z])/)`: scan carrying whether the
previous character was `[.!?]`; at a boundary the whole whitespace run is
consumed as separator. -/
def splitSentGo (prevPunct : Bool) (acc : Str) : Str → List Str
  | [] => [acc.reverse]
  | c :: rest =>
    if h : sentBoundary prevPunct (c :: rest) = true then
      acc.reverse :: splitSentGo false [] ((c :: rest).dropWhile isWS)
    else splitSentGo (isPunctEnd c) (c :: acc) rest
termination_by s => s.length
decreasing_by
  · simp only [sentBoundary, Bool.and_eq_true] at h
    rw [List.dropWhile_cons_of_pos h.2.1]
    simp only [List.length_cons]
    exact Nat.lt_succ_of_le (List.IsSuffix.length_le (List.dropWhile_suffix _))
  · simp

/-- The fallback-2 buffering loop of `splitIntoClauses`: sentences are
accumulated (joined by a single space) until the buffer reaches 400
characters, at which point it is pushed; a final buffer is pushed when its
trim is non-empty. -/
def sentenceAccum : List Str → List Str → Str → List Str
  | [], acc, buffer => if (trim buffer).isEmpty then acc else acc ++ [buffer]
  | sentence :: rest, acc, buffer =>
    let b := if buffer.isEmpty then sentence else buffer ++ [' '] ++ sentence
    if 400 ≤ b.length then sentenceAccum rest (acc ++ [b]) []
    else sentenceAccum rest acc b

/-- Fallback 2 of `splitIntoClauses`: sentence split then 400-character
buffering. -/
def sentenceClauses (normalized : Str) : List Str :=
  sentenceAccum (splitSentGo false [] normalized) [] []

/-- The blank-line separator `"\n\n"` used when coalescing pieces. -/
def blankSep : Str := ['\n', '\n']

/-- The coalescing loop of `splitIntoClauses` (lines 570–584 of the source):
trim each raw piece, skip empty ones, accumulate pieces joined by `"\n\n"`,
and push the buffer as a clause once it has at least 150 characters and
contains a period.  Returns the pushed clauses and the leftover buffer. -/
def coalesceGo : List Str → List Str → Str → List Str × Str
  | [], clauses, buffer => (clauses, buffer)
  | piece :: rest, clauses, buffer =>
    let t := trim piece
    if t.isEmpty then coalesceGo rest clauses buffer
    else
      let b := if buffer.isEmpty then t else buffer ++ blankSep ++ t
      if 150 ≤ b.length ∧ b.contains '.' then coalesceGo rest (clauses ++ [b]) []
      else coalesceGo rest clauses b

/-- The remainder handling of `splitIntoClauses` (lines 587–594): a leftover
buffer with non-empty trim is appended to the last clause when it is short
(below 100 characters) and a clause already exists, otherwise pushed as a
final clause. -/
def coalesceFinish (clauses : List Str) (buffer : Str) : List Str :=
  if ¬ (trim buffer).isEmpty then
    if clauses ≠ [] ∧ buffer.length < 100 then
      clauses.dropLast ++ [clauses.getLastD [] ++ blankSep ++ buffer]
    else clauses ++ [buffer]
  else clauses

/-- Embeds `splitIntoClauses(text)`: normalize line endings, split on blank lines,
fall back to enumerator-newline splitting when at most one piece resulted,
fall back further to sentence buffering when still at most one piece and the
document exceeds 500 characters, then coalesce the raw pieces. -/
def splitIntoClauses (text : Str) : List Str :=
  let normalized := normalizeNewlines text
  let raw1 := splitBlankLinesGo [] normalized
  let raw2 := if raw1.length ≤ 1 then splitEnumGo [] normalized else raw1
  let raw3 :=
    if raw2.length ≤ 1 ∧ 500 < normalized.length then sentenceClauses normalized
    else raw2
  let cb := coalesceGo raw3 [] []
  coalesceFinish cb.1 cb.2

/-- Wrapper applying `diffTokens` at its default `maxCells` of 120000. -/
def diffTokensDefault (original revised : Str) : Option (List Segment) :=
  diffTokens original revised defaultMaxCells

/-- A string of `n` copies of the token `"a"` each followed by a single
space: `n` whitespace-separated tokens (`2 * n` tokenizer tokens, counting
the whitespace runs). -/
def repTok (n : Nat) : Str := (List.replicate n ['a', ' ']).flatten

/-- The non-whitespace content of a string, in order. -/
def filterNW (l : Str) : Str := l.filter (fun c => !isWS c)

/-- Rejoining of clause texts with blank-line separators, as in the claim
about segmenter coverage. -/
def joinBlank : List Str → Str
  | [] => []
  | c :: rest => c ++ (if rest.isEmpty then [] else blankSep) ++ joinBlank rest

/-- First paragraph of the minimum-clause-size sample: 60 characters ending
in a period. -/
def pieceA : Str := List.replicate 59 'a' ++ ['.']

/-- Second paragraph of the minimum-clause-size sample: 300 characters
ending in a period. -/
def pieceB : Str := List.replicate 299 'b' ++ ['.']

/-- Two paragraphs of 60 and 300 characters separated by a blank line, and
the single clause they coalesce into. -/
def sampleDoc : Str := pieceA ++ ['\n', '\n'] ++ pieceB

def sampleClause : Str := pieceA ++ ['\n', '\n'] ++ pieceB

/-- Whether a string starts with a non-whitespace character (false for the
empty string). -/
def headNonWS : Str → Bool
  | [] => false
  | c :: _ => !isWS c

/-- A clause in good form: non-empty and bordered by non-whitespace on both
ends, hence equal to its own trim. -/
def goodClause (c : Str) : Bool := headNonWS c && headNonWS c.reverse

theorem tokenize_flatten : ∀ s : Str, (tokenize s).flatten = s := by
  intro s
  induction s using tokenize.induct with
  | case1 => simp [tokenize]
  | case2 c rest ih =>
    rw [tokenize]
    simp only [List.flatten_cons, List.cons_append, ih]
    rw [List.takeWhile_append_dropWhile]

theorem reconBy_cons (keep : SegType → Bool) (s : Segment) (rest : List Segment) :
    reconBy keep (s :: rest) =
      (if keep s.type then s.text else []) ++ reconBy keep rest := by
  simp only [reconBy, List.filter_cons]
  split <;> simp_all

theorem reconBy_map_inserts : ∀ ts : List Str,
    reconBy keepLeft (ts.map fun t => ⟨SegType.insert, t⟩) = [] ∧
    reconBy keepRight (ts.map fun t => ⟨SegType.insert, t⟩) = ts.flatten := by
  intro ts
  induction ts with
  | nil => simp [reconBy]
  | cons t tt ih => simp [reconBy_cons, keepLeft, keepRight, ih.1, ih.2]

theorem reconBy_map_deletes : ∀ ts : List Str,
    reconBy keepLeft (ts.map fun t => ⟨SegType.delete, t⟩) = ts.flatten ∧
    reconBy keepRight (ts.map fun t => ⟨SegType.delete, t⟩) = [] := by
  intro ts
  induction ts with
  | nil => simp [reconBy]
  | cons t tt ih => simp [reconBy_cons, keepLeft, keepRight, ih.1, ih.2]

theorem walk_recon : ∀ ls rs, reconBy keepLeft (walk ls rs) = ls.flatten ∧
    reconBy keepRight (walk ls rs) = rs.flatten := by
  intro ls rs
  induction ls, rs using walk.induct with
  | case1 rs =>
    rw [walk]
    exact ⟨(reconBy_map_inserts rs).1, (reconBy_map_inserts rs).2⟩
  | case2 l ls =>
    rw [walk]
    exact ⟨(reconBy_map_deletes (l :: ls)).1, (reconBy_map_deletes (l :: ls)).2⟩
  | case3 ta b tb ih =>
    rw [walk, if_pos rfl]
    simp [reconBy_cons, keepLeft, keepRight, ih.1, ih.2]
  | case4 a ta b tb hne hge ih =>
    rw [walk, if_neg hne, if_pos hge]
    simp [reconBy_cons, keepLeft, keepRight, ih.1, ih.2]
  | case5 a ta b tb hne hge ih =>
    rw [walk, if_neg hne, if_neg hge]
    simp [reconBy_cons, keepLeft, keepRight, ih.1, ih.2]

theorem reconBy_mergeSegments (keep : SegType → Bool) :
    ∀ l, reconBy keep (mergeSegments l) = reconBy keep l := by
  intro l
  induction l using mergeSegments.induct with
  | case1 => rw [mergeSegments]
  | case2 s => rw [mergeSegments]
  | case3 s t rest heq ih =>
    rw [mergeSegments, if_pos heq, ih]
    simp only [reconBy_cons, heq]
    split <;> simp
  | case4 s t rest hne ih =>
    rw [mergeSegments, if_neg hne]
    simp [reconBy_cons, ih]

theorem mergeSegments_shape : ∀ l s rest, l = s :: rest →
    ∃ txt tail, mergeSegments l = ⟨s.type, txt⟩ :: tail := by
  intro l
  induction l using mergeSegments.induct with
  | case1 => intro s rest h; cases h
  | case2 s0 =>
    intro s rest h
    obtain ⟨rfl, rfl⟩ : s0 = s ∧ rest = [] := by
      constructor <;> injection h <;> simp_all
    exact ⟨s0.text, [], by rw [mergeSegments]⟩
  | case3 s0 t rest0 heq ih =>
    intro s rest h
    obtain ⟨rfl, rfl⟩ : s0 = s ∧ rest = t :: rest0 := by
      constructor <;> injection h <;> simp_all
    obtain ⟨txt, tail, hm⟩ := ih _ _ rfl
    exact ⟨txt, tail, by rw [mergeSegments, if_pos heq]; exact hm⟩
  | case4 s0 t rest0 hne ih =>
    intro s rest h
    obtain ⟨rfl, rfl⟩ : s0 = s ∧ rest = t :: rest0 := by
      constructor <;> injection h <;> simp_all
    exact ⟨s0.text, mergeSegments (t :: rest0), by rw [mergeSegments, if_neg hne]⟩

theorem noAdjSame_mergeSegments : ∀ l, noAdjSame (mergeSegments l) = true := by
  intro l
  induction l using mergeSegments.induct with
  | case1 => rw [mergeSegments]; rfl
  | case2 s => rw [mergeSegments]; rfl
  | case3 s t rest heq ih => rw [mergeSegments, if_pos heq]; exact ih
  | case4 s t rest hne ih =>
    rw [mergeSegments, if_neg hne]
    obtain ⟨txt, tail, hm⟩ := mergeSegments_shape (t :: rest) t rest rfl
    rw [hm] at ih ⊢
    simp only [noAdjSame, Bool.and_eq_true, decide_eq_true_eq]
    exact ⟨hne, ih⟩

theorem diffTokens_eq_some (a b : Str) (mc : Nat)
    (h : (tokenize a).length * (tokenize b).length ≤ mc) :
    diffTokens a b mc = some (mergeSegments (walk (tokenize a) (tokenize b))) := by
  simp only [diffTokens]
  by_cases h0 : (tokenize a).length = 0 ∧ (tokenize b).length = 0
  · rw [if_pos h0]
    rw [List.length_eq_zero.mp h0.1, List.length_eq_zero.mp h0.2]
    simp only [walk, List.map_nil]
    rw [mergeSegments]
  · rw [if_neg h0, if_neg (Nat.not_lt.mpr h)]

theorem repTok_succ (n : Nat) : repTok (n + 1) = 'a' :: ' ' :: repTok n := by
  simp [repTok, List.replicate_succ]

theorem repTok_ws_runs (n : Nat) :
    (repTok n).takeWhile (fun d => isWS d == isWS ' ') = [] ∧
    (repTok n).dropWhile (fun d => isWS d == isWS ' ') = repTok n := by
  cases n with
  | zero => simp [repTok]
  | succ m =>
    rw [repTok_succ]
    constructor <;> simp <;> decide

theorem tokenize_repTok_len : ∀ n, (tokenize (repTok n)).length = 2 * n := by
  intro n
  induction n with
  | zero =>
    show (tokenize (repTok 0)).length = 2 * 0
    have h0 : repTok 0 = [] := by simp [repTok]
    rw [h0, tokenize]
    rfl
  | succ m ih =>
    rw [repTok_succ, tokenize]
    have h1 : (fun d => isWS d == isWS 'a') ' ' = false := by decide
    rw [List.takeWhile_cons_of_neg (by simp [h1]), List.dropWhile_cons_of_neg (by simp [h1])]
    rw [tokenize]
    rw [(repTok_ws_runs m).1, (repTok_ws_runs m).2]
    simp only [List.length_cons, ih]
    omega

/-- C1: for every pair of strings whose token-count product is within the
cell budget, `diffTokens` returns a segment sequence whose Delete+Equal texts
concatenate to the first string and whose Insert+Equal texts concatenate to
the second. -/
theorem diffTokens_reconstruction (a b : Str) (mc : Nat)
    (h : (tokenize a).length * (tokenize b).length ≤ mc) :
    ∃ segs, diffTokens a b mc = some segs ∧
      reconBy keepLeft segs = a ∧ reconBy keepRight segs = b := by
  refine ⟨_, diffTokens_eq_some a b mc h, ?_, ?_⟩
  · rw [reconBy_mergeSegments, (walk_recon _ _).1, tokenize_flatten]
  · rw [reconBy_mergeSegments, (walk_recon _ _).2, tokenize_flatten]

/-- Witness for C1 at a concrete input. -/
theorem diffTokens_reconstruction_witness :
    ∃ segs, diffTokens ['a', ' ', 'b'] ['a', ' ', 'c'] 9 = some segs ∧
      reconBy keepLeft segs = ['a', ' ', 'b'] ∧
      reconBy keepRight segs = ['a', ' ', 'c'] :=
  diffTokens_reconstruction ['a', ' ', 'b'] ['a', ' ', 'c'] 9 (by simp [tokenize, isWS])

/-- C2 counterexample: on `original = revised = "a"` the diff is one Equal
segment, so the Delete segments alone concatenate to the empty string, not to
the original. -/
theorem delete_only_counterexample :
    diffTokens ['a'] ['a'] defaultMaxCells = some [⟨SegType.equal, ['a']⟩] ∧
      ¬ reconBy keepDelete [⟨SegType.equal, ['a']⟩] = ['a'] := by
  constructor
  · simp [diffTokens, tokenize, isWS, defaultMaxCells, walk, mergeSegments]
  · simp [reconBy, keepDelete]

/-- C2 amended: the Delete and Equal segments (not the Delete segments
alone) concatenated in order equal the original. -/
theorem delete_equal_reconstruction (a b : Str) (mc : Nat)
    (h : (tokenize a).length * (tokenize b).length ≤ mc) :
    ∃ segs, diffTokens a b mc = some segs ∧ reconBy keepLeft segs = a := by
  refine ⟨_, diffTokens_eq_some a b mc h, ?_⟩
  rw [reconBy_mergeSegments, (walk_recon _ _).1, tokenize_flatten]

/-- Witness for the amended C2 at a concrete input. -/
theorem delete_equal_reconstruction_witness :
    ∃ segs, diffTokens ['x', ' ', 'y'] ['x', ' ', 'z'] 100 = some segs ∧
      reconBy keepLeft segs = ['x', ' ', 'y'] :=
  delete_equal_reconstruction ['x', ' ', 'y'] ['x', ' ', 'z'] 100 (by simp [tokenize, isWS])

/-- C3: concatenating the token texts of `tokenize s` reconstructs `s`
exactly, for every string, and the empty string yields the empty token
sequence. -/
theorem tokenize_round_trip :
    (∀ s : Str, (tokenize s).flatten = s) ∧ tokenize [] = [] :=
  ⟨tokenize_flatten, by rw [tokenize]⟩

/-- C4: any segment sequence returned by `diffTokens` has no two consecutive
segments of the same kind. -/
theorem diffTokens_no_adjacent_same_kind (a b : Str) (mc : Nat)
    (segs : List Segment) (h : diffTokens a b mc = some segs) :
    noAdjSame segs = true := by
  simp only [diffTokens] at h
  split at h
  · cases h; rfl
  · split at h
    · cases h
    · cases h; exact noAdjSame_mergeSegments _

/-- Witness for C4 at a concrete input. -/
theorem diffTokens_no_adjacent_witness :
    noAdjSame [⟨SegType.delete, ['a']⟩, ⟨SegType.insert, ['b']⟩] = true :=
  diffTokens_no_adjacent_same_kind ['a'] ['b'] 5 _
    (by simp [diffTokens, tokenize, isWS, walk, lcsLen, mergeSegments])

/-- C5: `diffTokens` returns the skip sentinel exactly when the token-count
product exceeds `maxCells` (and a segment sequence otherwise); the default
ceiling is 120000; two strings of 1000 whitespace-separated tokens against a
`maxCells` of 500 are skipped. -/
theorem diffTokens_budget_enforcement :
    (∀ a b mc, (mc < (tokenize a).length * (tokenize b).length →
        diffTokens a b mc = none) ∧
      ((tokenize a).length * (tokenize b).length ≤ mc →
        ∃ segs, diffTokens a b mc = some segs)) ∧
    defaultMaxCells = 120000 ∧
    (∀ a b, diffTokensDefault a b = diffTokens a b 120000) ∧
    diffTokens (repTok 1000) (repTok 1000) 500 = none := by
  have main : ∀ a b mc, (mc < (tokenize a).length * (tokenize b).length →
      diffTokens a b mc = none) ∧
      ((tokenize a).length * (tokenize b).length ≤ mc →
        ∃ segs, diffTokens a b mc = some segs) := by
    intro a b mc
    constructor
    · intro hlt
      simp only [diffTokens]
      rw [if_neg, if_pos hlt]
      rintro ⟨h1, h2⟩
      rw [h1, h2] at hlt
      omega
    · intro hle
      exact ⟨_, diffTokens_eq_some a b mc hle⟩
  refine ⟨main, rfl, fun a b => rfl, ?_⟩
  refine (main _ _ 500).1 ?_
  rw [tokenize_repTok_len]
  norm_num

/-- Witness for C5 at a concrete input: one token against three tokens with
a one-cell budget is skipped. -/
theorem diffTokens_budget_witness : diffTokens ['a'] ['b', ' ', 'c'] 1 = none :=
  (diffTokens_budget_enforcement.1 ['a'] ['b', ' ', 'c'] 1).1 (by simp [tokenize, isWS])

/-- C7: at a position where the current tokens differ, the walk emits a
Delete of the left token exactly when the sub-problem skipping the left
token has LCS value not smaller than the sub-problem skipping the right
token, and an Insert of the right token exactly when the Insert side's
sub-problem value is strictly larger: Delete has priority on ties. -/
theorem walk_tie_break_prefers_delete (l r : Str) (ls rs : List Str)
    (hne : l ≠ r) :
    (walk (l :: ls) (r :: rs) = ⟨SegType.delete, l⟩ :: walk ls (r :: rs) ↔
      lcsLen (l :: ls) rs ≤ lcsLen ls (r :: rs)) ∧
    (walk (l :: ls) (r :: rs) = ⟨SegType.insert, r⟩ :: walk (l :: ls) rs ↔
      lcsLen ls (r :: rs) < lcsLen (l :: ls) rs) := by
  by_cases hge : lcsLen ls (r :: rs) ≥ lcsLen (l :: ls) rs
  · rw [walk, if_neg hne, if_pos hge]
    constructor
    · exact ⟨fun _ => hge, fun _ => rfl⟩
    · constructor
      · intro hcontra
        have := List.head_eq_of_cons_eq hcontra
        simp [Segment.mk.injEq] at this
      · omega
  · rw [walk, if_neg hne, if_neg hge]
    constructor
    · constructor
      · intro hcontra
        have := List.head_eq_of_cons_eq hcontra
        simp [Segment.mk.injEq] at this
      · omega
    · exact ⟨fun _ => by omega, fun _ => rfl⟩

/-- Witness for C7 at a concrete input: equal sub-problem values emit a
Delete. -/
theorem walk_tie_break_witness :
    walk [['a']] [['b']] = ⟨SegType.delete, ['a']⟩ :: walk [] [['b']] :=
  (walk_tie_break_prefers_delete ['a'] ['b'] [] [] (by decide)).1.mpr
    (by simp [lcsLen])

/-- C8: behavior of the region-merged renderer: a significant Equal segment
(trimmed length at least the threshold 10) flushes non-empty accumulators as
a single Change region and then emits an Equal region; an Equal segment
below the threshold appends its text to both accumulators; at the end of the
walk, remaining accumulators are emitted as a Change region when their
trimmed contents differ and as an Equal region when they agree after
trimming. -/
theorem formatDiffRegions_behavior :
    (∀ rest pd pins t, MIN_EQUAL_LENGTH ≤ (trim t).length →
      formatDiffRegions (⟨SegType.equal, t⟩ :: rest) pd pins =
        (if pd ≠ [] ∨ pins ≠ [] then [Region.change pd pins] else []) ++
          Region.equal t :: formatDiffRegions rest [] []) ∧
    (∀ rest pd pins t, (trim t).length < MIN_EQUAL_LENGTH →
      formatDiffRegions (⟨SegType.equal, t⟩ :: rest) pd pins =
        formatDiffRegions rest (pd ++ t) (pins ++ t)) ∧
    (∀ pd pins, pd ≠ [] ∨ pins ≠ [] →
      formatDiffRegions [] pd pins =
        if trim pd ≠ trim pins then [Region.change pd pins]
        else [Region.equal pins]) := by
  refine ⟨?_, ?_, ?_⟩
  · intro rest pd pins t h
    rw [formatDiffRegions]
    rw [if_pos h]
  · intro rest pd pins t h
    rw [formatDiffRegions]
    rw [if_neg (Nat.not_le.mpr h)]
  · intro pd pins h
    rw [formatDiffRegions, if_pos h]

/-- Witness for C8 at concrete inputs. -/
theorem formatDiffRegions_behavior_witness :
    formatDiffRegions [⟨SegType.equal, List.replicate 10 'e'⟩] ['x'] [] =
      (if (['x'] : Str) ≠ [] ∨ ([] : Str) ≠ [] then [Region.change ['x'] []] else []) ++
        Region.equal (List.replicate 10 'e') :: formatDiffRegions [] [] [] :=
  formatDiffRegions_behavior.1 [] ['x'] [] (List.replicate 10 'e') (by decide)

theorem filterNW_append (a b : Str) : filterNW (a ++ b) = filterNW a ++ filterNW b :=
  List.filter_append a b

theorem filterNW_takeWhile_ws (l : Str) : filterNW (l.takeWhile isWS) = [] := by
  refine List.filter_eq_nil_iff.mpr ?_
  intro c hc
  simp [List.mem_takeWhile_imp hc]

theorem filterNW_dropWhile_ws (l : Str) : filterNW (l.dropWhile isWS) = filterNW l := by
  conv_rhs => rw [← List.takeWhile_append_dropWhile (p := isWS) (l := l)]
  rw [filterNW_append, filterNW_takeWhile_ws, List.nil_append]

theorem filterNW_reverse (l : Str) : filterNW l.reverse = (filterNW l).reverse :=
  List.filter_reverse _ _

theorem filterNW_trim (l : Str) : filterNW (trim l) = filterNW l := by
  unfold trim
  rw [filterNW_reverse, filterNW_dropWhile_ws, filterNW_reverse, List.reverse_reverse,
    filterNW_dropWhile_ws]

theorem filterNW_of_trim_nil (l : Str) (h : (trim l).isEmpty = true) :
    filterNW l = [] := by
  rw [← filterNW_trim, List.isEmpty_iff.mp h]
  rfl

theorem filterNW_normalizeNewlines (l : Str) :
    filterNW (normalizeNewlines l) = filterNW l := by
  induction l using normalizeNewlines.induct with
  | case1 => rfl
  | case2 rest ih =>
    rw [normalizeNewlines.eq_2]
    simpa [filterNW, List.filter_cons] using ih
  | case3 rest h ih =>
    rw [normalizeNewlines.eq_3 rest h]
    simpa [filterNW, List.filter_cons] using ih
  | case4 c rest h1 h2 ih =>
    rw [normalizeNewlines.eq_4 c rest h1 h2]
    simp only [filterNW, List.filter_cons] at ih ⊢
    split <;> simp [ih]

theorem mem_take_takeWhile_ws :
    ∀ (l : Str) (k : Nat), k ≤ (l.takeWhile isWS).length →
      ∀ c ∈ l.take k, isWS c = true := by
  intro l
  induction l with
  | nil => intro k _ c hc; simp at hc
  | cons d t ih =>
    intro k hk c hc
    cases k with
    | zero => simp at hc
    | succ m =>
      by_cases hd : isWS d
      · rw [List.takeWhile_cons_of_pos hd] at hk
        simp only [List.length_cons, Nat.succ_le_succ_iff] at hk
        rw [List.take_succ_cons] at hc
        rcases List.mem_cons.mp hc with rfl | hc2
        · exact hd
        · exact ih m hk c hc2
      · rw [List.takeWhile_cons_of_neg hd] at hk
        simp at hk

theorem filterNW_drop_ws (l : Str) (k : Nat)
    (hk : k ≤ (l.takeWhile isWS).length) : filterNW (l.drop k) = filterNW l := by
  conv_rhs => rw [← List.take_append_drop k l]
  rw [filterNW_append]
  have : filterNW (l.take k) = [] := by
    refine List.filter_eq_nil_iff.mpr ?_
    intro c hc
    simp [mem_take_takeWhile_ws l k hk c hc]
  rw [this, List.nil_append]

theorem filterNW_shift (acc rest : Str) (c : Char) :
    filterNW ((c :: acc).reverse ++ rest) = filterNW (acc.reverse ++ c :: rest) := by
  rw [List.reverse_cons, List.append_assoc]
  rfl

theorem splitBlankLinesGo_nw : ∀ acc s : Str,
    filterNW ((splitBlankLinesGo acc s).flatten) = filterNW (acc.reverse ++ s) := by
  intro acc s
  induction acc, s using splitBlankLinesGo.induct with
  | case1 acc => simp [splitBlankLinesGo]
  | case2 acc c rest h ih =>
    rw [splitBlankLinesGo, dif_pos h]
    simp only [List.flatten_cons, filterNW_append]
    rw [ih]
    simp only [List.reverse_nil, List.nil_append]
    have hk : blankSepLen (c :: rest) ≤ ((c :: rest).takeWhile isWS).length := by
      simp only [blankSepLen]
      exact Nat.sub_le _ _
    rw [filterNW_drop_ws _ _ hk]
  | case3 acc c rest h ih =>
    rw [splitBlankLinesGo, dif_neg h]
    rw [ih, filterNW_shift]

theorem splitEnumGo_nw : ∀ acc s : Str,
    filterNW ((splitEnumGo acc s).flatten) = filterNW (acc.reverse ++ s) := by
  intro acc s
  induction acc, s using splitEnumGo.induct with
  | case1 acc => simp [splitEnumGo]
  | case2 acc c rest h ih =>
    rw [splitEnumGo, if_pos h]
    simp only [List.flatten_cons, filterNW_append]
    rw [ih]
    simp only [List.reverse_nil, List.nil_append]
    rw [h.1]
    have hnl : isWS '\n' = true := by decide
    simp [filterNW_append, filterNW, List.filter_cons, hnl]
  | case3 acc c rest h ih =>
    rw [splitEnumGo, if_neg h]
    rw [ih, filterNW_shift]

theorem splitSentGo_nw : ∀ (pp : Bool) (acc s : Str),
    filterNW ((splitSentGo pp acc s).flatten) = filterNW (acc.reverse ++ s) := by
  intro pp acc s
  induction pp, acc, s using splitSentGo.induct with
  | case1 pp acc => simp [splitSentGo]
  | case2 pp acc c rest h ih =>
    rw [splitSentGo, dif_pos h]
    simp only [List.flatten_cons, filterNW_append]
    rw [ih]
    simp only [List.reverse_nil, List.nil_append]
    rw [filterNW_dropWhile_ws]
  | case3 pp acc c rest h ih =>
    rw [splitSentGo, dif_neg h]
    rw [ih, filterNW_shift]

theorem sentenceAccum_nw : ∀ (sentences acc : List Str) (buffer : Str),
    filterNW ((sentenceAccum sentences acc buffer).flatten) =
      filterNW (acc.flatten ++ (buffer ++ sentences.flatten)) := by
  intro sentences
  induction sentences with
  | nil =>
    intro acc buffer
    simp only [sentenceAccum]
    split
    · rename_i hemp
      rw [filterNW_append, filterNW_append, filterNW_of_trim_nil _ hemp]
      simp [filterNW]
    · simp [filterNW_append, filterNW]
  | cons sentence rest ih =>
    intro acc buffer
    simp only [sentenceAccum]
    have hsp : filterNW [' '] = [] := by decide
    by_cases hbuf : List.isEmpty buffer = true
    · rw [if_pos hbuf, List.isEmpty_iff.mp hbuf]
      by_cases hlen : 400 ≤ sentence.length
      · rw [if_pos hlen, ih]
        simp [List.flatten_append, filterNW_append]
      · rw [if_neg hlen, ih]
        simp [filterNW_append]
    · rw [if_neg hbuf]
      have hws : isWS ' ' = true := by decide
      by_cases hlen : 400 ≤ (buffer ++ [' '] ++ sentence).length
      · rw [if_pos hlen, ih]
        simp [List.flatten_append, filterNW, List.filter_append, List.filter_cons, hws]
      · rw [if_neg hlen, ih]
        simp [filterNW, List.filter_append, List.filter_cons, hws]

theorem filterNW_nil : filterNW [] = [] := rfl

theorem coalesceGo_nw : ∀ (raw clauses : List Str) (buffer : Str),
    filterNW ((coalesceGo raw clauses buffer).1.flatten ++ (coalesceGo raw clauses buffer).2) =
      filterNW (clauses.flatten ++ (buffer ++ raw.flatten)) := by
  intro raw
  induction raw with
  | nil =>
    intro clauses buffer
    simp only [coalesceGo]
    simp [filterNW_append, filterNW_nil]
  | cons piece rest ih =>
    intro clauses buffer
    simp only [coalesceGo]
    have ht : filterNW (trim piece) = filterNW piece := filterNW_trim piece
    have hbs : filterNW blankSep = [] := by decide
    by_cases hemp : (trim piece).isEmpty = true
    · rw [if_pos hemp, ih]
      have hp : filterNW piece = [] := by
        rw [← filterNW_trim, List.isEmpty_iff.mp hemp]
        rfl
      simp [filterNW_append, hp]
    · rw [if_neg hemp]
      by_cases hbuf : List.isEmpty buffer = true
      · rw [if_pos hbuf, List.isEmpty_iff.mp hbuf]
        by_cases hpush : 150 ≤ (trim piece).length ∧ (trim piece).contains '.' = true
        · rw [if_pos hpush, ih]
          simp [List.flatten_append, filterNW_append, filterNW_nil, ht]
        · rw [if_neg hpush, ih]
          simp [filterNW_append, filterNW_nil, ht]
      · rw [if_neg hbuf]
        by_cases hpush : 150 ≤ (buffer ++ blankSep ++ trim piece).length ∧
            (buffer ++ blankSep ++ trim piece).contains '.' = true
        · rw [if_pos hpush, ih]
          simp [List.flatten_append, filterNW_append, filterNW_nil, ht, hbs]
        · rw [if_neg hpush, ih]
          simp [filterNW_append, filterNW_nil, ht, hbs]

theorem coalesceFinish_nw (clauses : List Str) (buffer : Str) :
    filterNW ((coalesceFinish clauses buffer).flatten) =
      filterNW (clauses.flatten ++ buffer) := by
  unfold coalesceFinish
  split
  · split
    · rename_i hcl
      rcases (List.eq_nil_or_concat clauses) with rfl | ⟨L, z, rfl⟩
      · exact absurd rfl hcl.1
      · simp only [List.concat_eq_append, List.dropLast_concat, List.getLastD_concat]
        have hbs : filterNW blankSep = [] := by decide
        simp [List.flatten_append, filterNW_append, hbs]
    · simp [List.flatten_append, filterNW_append, filterNW]
  · rename_i hemp
    have hb : filterNW buffer = [] := by
      have h2 : trim buffer = [] := List.isEmpty_iff.mp (by simpa using hemp)
      rw [← filterNW_trim, h2]
      rfl
    simp [filterNW_append, hb]

theorem coalesce_pipeline_nw (raw : List Str) :
    filterNW ((coalesceFinish (coalesceGo raw [] []).1 (coalesceGo raw [] []).2).flatten) =
      filterNW raw.flatten := by
  rw [coalesceFinish_nw]
  simpa using coalesceGo_nw raw [] []

theorem splitIntoClauses_nw (doc : Str) :
    filterNW ((splitIntoClauses doc).flatten) = filterNW doc := by
  unfold splitIntoClauses
  rw [coalesce_pipeline_nw]
  have hbl : filterNW ((splitBlankLinesGo [] (normalizeNewlines doc)).flatten) =
      filterNW (normalizeNewlines doc) := by
    simpa using splitBlankLinesGo_nw [] (normalizeNewlines doc)
  have hen : filterNW ((splitEnumGo [] (normalizeNewlines doc)).flatten) =
      filterNW (normalizeNewlines doc) := by
    simpa using splitEnumGo_nw [] (normalizeNewlines doc)
  have hsc : filterNW ((sentenceClauses (normalizeNewlines doc)).flatten) =
      filterNW (normalizeNewlines doc) := by
    unfold sentenceClauses
    rw [sentenceAccum_nw]
    simpa using splitSentGo_nw false [] (normalizeNewlines doc)
  rw [← filterNW_normalizeNewlines doc]
  split
  · split
    · exact hsc
    · exact hen
  · split
    · exact hsc
    · exact hbl

theorem filterNW_joinBlank_trim (clauses : List Str) :
    filterNW (joinBlank (clauses.map trim)) = filterNW clauses.flatten := by
  induction clauses with
  | nil => rfl
  | cons c rest ih =>
    simp only [List.map_cons, joinBlank, List.flatten_cons, filterNW_append, ih,
      filterNW_trim]
    split
    · simp [filterNW_nil]
    · have hbs : filterNW blankSep = [] := by decide
      simp [hbs]

/-- C6 counterexample: a whitespace-only document is a non-empty string for
which `splitIntoClauses` returns the empty clause list. -/
theorem splitIntoClauses_ws_only_counterexample :
    ([' '] : Str) ≠ [] ∧ splitIntoClauses [' '] = [] := by
  constructor
  · decide
  · simp [splitIntoClauses, normalizeNewlines, splitBlankLinesGo, blankSepLen, splitEnumGo,
      enumAhead, sentenceClauses, splitSentGo, sentBoundary, sentenceAccum, coalesceGo,
      coalesceFinish, trim, isWS, isUpperAZ, isPunctEnd, isDigitCh]

/-- C6 amended: for every document containing at least one non-whitespace
character, `splitIntoClauses` returns a non-empty clause list, and the
clauses, trimmed and rejoined with blank-line separators, carry exactly the
non-whitespace content of the original in document order. -/
theorem splitIntoClauses_coverage (doc : Str) (h : filterNW doc ≠ []) :
    splitIntoClauses doc ≠ [] ∧
      filterNW (joinBlank ((splitIntoClauses doc).map trim)) = filterNW doc := by
  have hm := splitIntoClauses_nw doc
  constructor
  · intro hnil
    rw [hnil] at hm
    exact h (by simpa using hm.symm)
  · rw [filterNW_joinBlank_trim, hm]

/-- Witness for the amended C6 at a concrete input. -/
theorem splitIntoClauses_coverage_witness :
    splitIntoClauses ['a', 'b'] ≠ [] ∧
      filterNW (joinBlank ((splitIntoClauses ['a', 'b']).map trim)) =
        filterNW ['a', 'b'] :=
  splitIntoClauses_coverage ['a', 'b'] (by decide)

theorem coalesceGo_min_len : ∀ (raw clauses : List Str) (buffer : Str),
    (∀ c ∈ clauses, 150 ≤ c.length) →
    ∀ c ∈ (coalesceGo raw clauses buffer).1, 150 ≤ c.length := by
  intro raw
  induction raw with
  | nil =>
    intro clauses buffer h
    simp only [coalesceGo]
    exact h
  | cons piece rest ih =>
    intro clauses buffer h
    simp only [coalesceGo]
    by_cases hemp : (trim piece).isEmpty = true
    · rw [if_pos hemp]
      exact ih _ _ h
    · rw [if_neg hemp]
      by_cases hbuf : List.isEmpty buffer = true
      · rw [if_pos hbuf]
        by_cases hpush : 150 ≤ (trim piece).length ∧ (trim piece).contains '.' = true
        · rw [if_pos hpush]
          refine ih _ _ ?_
          intro c hc
          rcases List.mem_append.mp hc with hc2 | hc2
          · exact h c hc2
          · rw [List.mem_singleton.mp hc2]
            exact hpush.1
        · rw [if_neg hpush]
          exact ih _ _ h
      · rw [if_neg hbuf]
        by_cases hpush : 150 ≤ (buffer ++ blankSep ++ trim piece).length ∧
            (buffer ++ blankSep ++ trim piece).contains '.' = true
        · rw [if_pos hpush]
          refine ih _ _ ?_
          intro c hc
          rcases List.mem_append.mp hc with hc2 | hc2
          · exact h c hc2
          · rw [List.mem_singleton.mp hc2]
            exact hpush.1
        · rw [if_neg hpush]
          exact ih _ _ h

theorem coalesceFinish_min_len (clauses : List Str) (buffer : Str)
    (h : ∀ c ∈ clauses, 150 ≤ c.length) :
    ∀ c ∈ (coalesceFinish clauses buffer).dropLast, 150 ≤ c.length := by
  unfold coalesceFinish
  split
  · split
    · rename_i hcl
      rcases List.eq_nil_or_concat clauses with rfl | ⟨L, z, rfl⟩
      · exact absurd rfl hcl.1
      · simp only [List.concat_eq_append, List.dropLast_concat, List.getLastD_concat] at h ⊢
        intro c hc
        exact h c (List.mem_append.mpr (Or.inl hc))
    · rw [List.dropLast_concat]
      exact h
  · intro c hc
    exact h c (List.mem_of_mem_dropLast hc)

set_option maxHeartbeats 4000000 in
set_option maxRecDepth 100000 in
/-- C9: every clause before the last has at least 150 characters, and the
60/300-character two-paragraph sample coalesces into a single clause of at
least 150 characters. -/
theorem splitIntoClauses_min_size :
    (∀ doc : Str,
      ((splitIntoClauses doc).dropLast.all fun c => decide (150 ≤ c.length)) = true) ∧
    splitIntoClauses sampleDoc = [sampleClause] ∧
    150 ≤ sampleClause.length := by
  refine ⟨?_, ?_, ?_⟩
  · intro doc
    rw [List.all_eq_true]
    intro c hc
    rw [decide_eq_true_eq]
    unfold splitIntoClauses at hc
    exact coalesceFinish_min_len _ _
      (coalesceGo_min_len _ _ _ (by intro x hx; exact absurd hx (List.not_mem_nil x))) c hc
  · simp [splitIntoClauses, sampleDoc, sampleClause, pieceA, pieceB, normalizeNewlines,
      splitBlankLinesGo, blankSepLen, splitEnumGo, enumAhead, sentenceClauses, splitSentGo,
      sentBoundary, sentenceAccum, coalesceGo, coalesceFinish, trim, isWS, isUpperAZ,
      isPunctEnd, isDigitCh, blankSep, List.replicate]
  · norm_num [sampleClause, pieceA, pieceB]

theorem headNonWS_append (l m : Str) (h : l ≠ []) :
    headNonWS (l ++ m) = headNonWS l := by
  cases l with
  | nil => exact absurd rfl h
  | cons c t => rfl

theorem headNonWS_dropWhile (l : Str) (h : l.dropWhile isWS ≠ []) :
    headNonWS (l.dropWhile isWS) = true := by
  induction l with
  | nil => simp [List.dropWhile] at h
  | cons c t ih =>
    by_cases hc : isWS c
    · rw [List.dropWhile_cons_of_pos hc] at h ⊢
      exact ih h
    · rw [List.dropWhile_cons_of_neg hc]
      simp [headNonWS, hc]

theorem goodClause_trim_self (c : Str) (h : goodClause c = true) : trim c = c := by
  obtain ⟨h1, h2⟩ := (Bool.and_eq_true _ _).mp h
  unfold trim
  have e1 : c.dropWhile isWS = c := by
    cases c with
    | nil => rfl
    | cons d t =>
      simp only [headNonWS] at h1
      rw [List.dropWhile_cons_of_neg (by simpa using h1)]
  rw [e1]
  cases hcr : c.reverse with
  | nil =>
    have hc0 : c = [] := by simpa using congrArg List.reverse hcr
    subst hc0
    rfl
  | cons d t =>
    rw [hcr] at h2
    simp only [headNonWS] at h2
    rw [List.dropWhile_cons_of_neg (by simpa using h2), ← hcr,
      List.reverse_reverse]

theorem goodClause_append_blank (a b : Str) (ha : goodClause a = true)
    (hb : goodClause b = true) : goodClause (a ++ blankSep ++ b) = true := by
  obtain ⟨ha1, ha2⟩ := (Bool.and_eq_true _ _).mp ha
  obtain ⟨hb1, hb2⟩ := (Bool.and_eq_true _ _).mp hb
  have hane : a ≠ [] := by
    intro h0
    rw [h0] at ha1
    simp [headNonWS] at ha1
  have hbne : b ≠ [] := by
    intro h0
    rw [h0] at hb1
    simp [headNonWS] at hb1
  unfold goodClause
  rw [Bool.and_eq_true]
  constructor
  · rw [headNonWS_append _ _ (by simp [hane]), headNonWS_append _ _ hane]
    exact ha1
  · rw [List.reverse_append, headNonWS_append _ _ (by simp [hbne])]
    exact hb2

theorem goodClause_trim_of_ne (p : Str) (h : trim p ≠ []) :
    goodClause (trim p) = true := by
  have hu : p.dropWhile isWS ≠ [] := by
    intro h0
    exact h (by simp [trim, h0])
  have hv : (p.dropWhile isWS).reverse.dropWhile isWS ≠ [] := by
    intro h0
    exact h (by simp [trim, h0])
  unfold goodClause trim
  rw [Bool.and_eq_true]
  constructor
  · obtain ⟨w, hw⟩ := List.dropWhile_suffix (p := isWS) (l := (p.dropWhile isWS).reverse)
    have hu2 : ((p.dropWhile isWS).reverse.dropWhile isWS).reverse ++ w.reverse =
        p.dropWhile isWS := by
      have := congrArg List.reverse hw
      simpa [List.reverse_append] using this
    have hvr : ((p.dropWhile isWS).reverse.dropWhile isWS).reverse ≠ [] := by
      simpa using hv
    calc headNonWS ((p.dropWhile isWS).reverse.dropWhile isWS).reverse
        = headNonWS (((p.dropWhile isWS).reverse.dropWhile isWS).reverse ++ w.reverse) :=
          (headNonWS_append _ _ hvr).symm
      _ = headNonWS (p.dropWhile isWS) := by rw [hu2]
      _ = true := headNonWS_dropWhile p hu
  · rw [List.reverse_reverse]
    exact headNonWS_dropWhile _ hv

theorem coalesceGo_good : ∀ (raw clauses : List Str) (buffer : Str),
    (∀ c ∈ clauses, goodClause c = true) →
    (buffer = [] ∨ goodClause buffer = true) →
    (∀ c ∈ (coalesceGo raw clauses buffer).1, goodClause c = true) ∧
      ((coalesceGo raw clauses buffer).2 = [] ∨
        goodClause (coalesceGo raw clauses buffer).2 = true) := by
  intro raw
  induction raw with
  | nil =>
    intro clauses buffer hc hb
    simp only [coalesceGo]
    exact ⟨hc, hb⟩
  | cons piece rest ih =>
    intro clauses buffer hc hb
    simp only [coalesceGo]
    by_cases hemp : (trim piece).isEmpty = true
    · rw [if_pos hemp]
      exact ih _ _ hc hb
    · rw [if_neg hemp]
      have htg : goodClause (trim piece) = true :=
        goodClause_trim_of_ne piece (by simpa using hemp)
      by_cases hbuf : List.isEmpty buffer = true
      · rw [if_pos hbuf]
        by_cases hpush : 150 ≤ (trim piece).length ∧ (trim piece).contains '.' = true
        · rw [if_pos hpush]
          refine ih _ _ ?_ (Or.inl rfl)
          intro c hcm
          rcases List.mem_append.mp hcm with h1 | h1
          · exact hc c h1
          · rw [List.mem_singleton.mp h1]
            exact htg
        · rw [if_neg hpush]
          exact ih _ _ hc (Or.inr htg)
      · rw [if_neg hbuf]
        have hbg : goodClause buffer = true := by
          rcases hb with h0 | h0
          · rw [h0] at hbuf
            exact absurd rfl hbuf
          · exact h0
        have hbb : goodClause (buffer ++ blankSep ++ trim piece) = true :=
          goodClause_append_blank buffer (trim piece) hbg htg
        by_cases hpush : 150 ≤ (buffer ++ blankSep ++ trim piece).length ∧
            (buffer ++ blankSep ++ trim piece).contains '.' = true
        · rw [if_pos hpush]
          refine ih _ _ ?_ (Or.inl rfl)
          intro c hcm
          rcases List.mem_append.mp hcm with h1 | h1
          · exact hc c h1
          · rw [List.mem_singleton.mp h1]
            exact hbb
        · rw [if_neg hpush]
          exact ih _ _ hc (Or.inr hbb)

theorem coalesceFinish_good (clauses : List Str) (buffer : Str)
    (hc : ∀ c ∈ clauses, goodClause c = true)
    (hb : buffer = [] ∨ goodClause buffer = true) :
    ∀ c ∈ coalesceFinish clauses buffer, goodClause c = true := by
  unfold coalesceFinish
  split
  · rename_i hne
    have hbg : goodClause buffer = true := by
      rcases hb with h0 | h0
      · rw [h0] at hne
        exact absurd (show trim ([] : Str) = [] from rfl) (by simpa using hne)
      · exact h0
    split
    · rename_i hcl
      rcases List.eq_nil_or_concat clauses with rfl | ⟨L, z, rfl⟩
      · exact absurd rfl hcl.1
      · simp only [List.concat_eq_append, List.dropLast_concat, List.getLastD_concat]
        simp only [List.concat_eq_append] at hc
        intro c hcm
        rcases List.mem_append.mp hcm with h1 | h1
        · exact hc c (List.mem_append.mpr (Or.inl h1))
        · rw [List.mem_singleton.mp h1]
          exact goodClause_append_blank z buffer
            (hc z (List.mem_append.mpr (Or.inr (List.mem_singleton.mpr rfl)))) hbg
    · intro c hcm
      rcases List.mem_append.mp hcm with h1 | h1
      · exact hc c h1
      · rw [List.mem_singleton.mp h1]
        exact hbg
  · exact hc

/-- C10: every clause returned by `splitIntoClauses` contains a
non-whitespace character and equals its own trim. -/
theorem splitIntoClauses_clauses_trimmed (doc c : Str)
    (h : c ∈ splitIntoClauses doc) :
    (∃ ch ∈ c, isWS ch = false) ∧ trim c = c := by
  have hg : goodClause c = true := by
    unfold splitIntoClauses at h
    refine coalesceFinish_good _ _
      ((coalesceGo_good _ [] [] ?_ (Or.inl rfl)).1)
      ((coalesceGo_good _ [] [] ?_ (Or.inl rfl)).2) c h <;>
      intro x hx <;> exact absurd hx (List.not_mem_nil x)
  refine ⟨?_, goodClause_trim_self c hg⟩
  obtain ⟨d, t, rfl⟩ : ∃ d t, c = d :: t := by
    cases c with
    | nil => simp [goodClause, headNonWS] at hg
    | cons d t => exact ⟨d, t, rfl⟩
  have h1 := ((Bool.and_eq_true _ _).mp hg).1
  simp only [headNonWS] at h1
  exact ⟨d, List.mem_cons_self d t, by simpa using h1⟩

/-- Witness for C10 at a concrete input. -/
theorem splitIntoClauses_clauses_trimmed_witness :
    (∃ ch ∈ (['c', 'd'] : Str), isWS ch = false) ∧ trim (['c', 'd'] : Str) = ['c', 'd'] :=
  splitIntoClauses_clauses_trimmed ['c', 'd'] ['c', 'd']
    (by simp [splitIntoClauses, normalizeNewlines, splitBlankLinesGo, blankSepLen,
      splitEnumGo, enumAhead, sentenceClauses, splitSentGo, sentBoundary, sentenceAccum,
      coalesceGo, coalesceFinish, trim, isWS, isUpperAZ, isPunctEnd, isDigitCh])
